import Mathlib

/-!
Verification of the in-memory notes store of the simple-notes-application
repository (`src/notes_backend/src/api/routes_notes.py` and
`src/notes_backend/src/api/models.py`).

The store is a Python dict `_STORE : Dict[int, Note]` plus a counter
`_NEXT_ID`, mutated by the route handlers `create_note`, `list_notes`,
`get_note`, `replace_note`, `update_note`, `delete_note`.  We embed the
dict as an association list with Python-dict key order (assignment to an
existing key keeps its position, a fresh key is appended, deletion removes
the key), timestamps as natural numbers, and `datetime.now` as an explicit
`now` argument to each handler.  Pydantic validation of the request models
(`NoteCreate`, `NoteUpdate`) is embedded as parsing functions that run at
the boundary before a handler runs, exactly as FastAPI does.
-/

namespace NotesApp

/-- The `Note` pydantic model of `models.py`: id, title, content and the
two UTC timestamps (embedded as `Nat`). -/
structure Note where
  id : Nat
  title : String
  content : String
  created_at : Nat
  updated_at : Nat
  deriving DecidableEq, Repr

/-- The `NoteCreate` payload model: both fields required. -/
structure NoteCreate where
  title : String
  content : String
  deriving DecidableEq, Repr

/-- The `NoteUpdate` payload model: both fields optional (`None` means the
field was not supplied). -/
structure NoteUpdate where
  title : Option String
  content : Option String
  deriving DecidableEq, Repr

/-- The pydantic constraint on `NoteCreate` (`models.py`): title has
`min_length=1, max_length=200`; content only `min_length=0`. -/
def NoteCreate.valid (p : NoteCreate) : Prop :=
  1 ≤ p.title.length ∧ p.title.length ≤ 200

instance (p : NoteCreate) : Decidable p.valid := by
  unfold NoteCreate.valid; infer_instance

/-- The pydantic constraint on `NoteUpdate`: when the title is supplied it
must have length in `[1, 200]`; an absent field is unconstrained. -/
def NoteUpdate.valid (p : NoteUpdate) : Prop :=
  ∀ t, p.title = some t → 1 ≤ t.length ∧ t.length ≤ 200

instance (p : NoteUpdate) : Decidable p.valid := by
  unfold NoteUpdate.valid
  cases h : p.title with
  | none => exact isTrue (by intro t ht; simp [h] at ht)
  | some t =>
    by_cases hc : 1 ≤ t.length ∧ t.length ≤ 200
    · exact isTrue (by intro u hu; cases hu; exact hc)
    · exact isFalse (fun hv => hc (hv t rfl))

/-- A Python dict from `Nat` to `Note`, as an association list in key
insertion order. -/
abbrev Dict := List (Nat × Note)

/-- Lookup `d.get(k)` / `d[k]`. -/
def dictGet (d : Dict) (k : Nat) : Option Note :=
  match d with
  | [] => none
  | (k', v) :: rest => if k' = k then some v else dictGet rest k

/-- Assignment `d[k] = v`: assignment to an existing key keeps its position in the
dict order; a fresh key is appended (Python dict semantics). -/
def dictSet (d : Dict) (k : Nat) (v : Note) : Dict :=
  match d with
  | [] => [(k, v)]
  | (k', v') :: rest =>
      if k' = k then (k, v) :: rest else (k', v') :: dictSet rest k v

/-- Deletion `del d[k]`: removes the (unique) entry with key `k`. -/
def dictDel (d : Dict) (k : Nat) : Dict :=
  match d with
  | [] => []
  | (k', v') :: rest =>
      if k' = k then rest else (k', v') :: dictDel rest k

/-- Values `d.values()`, in dict order. -/
def dictValues (d : Dict) : List Note := d.map Prod.snd

/-- The keys of the dict, in dict order. -/
def dictKeys (d : Dict) : List Nat := d.map Prod.fst

/-- The module-level mutable state of `routes_notes.py`: the dict `_STORE`
and the counter `_NEXT_ID` (initialized to 1). -/
structure Store where
  _STORE : Dict
  _NEXT_ID : Nat
  deriving DecidableEq, Repr

/-- The state at process start: empty dict, counter 1. -/
def Store.init : Store := ⟨[], 1⟩

/-- The error a handler can raise (`HTTPException 404`), or the 422 the
framework returns when the payload fails pydantic validation. -/
inductive ApiError where
  | notFound
  | validationError
  deriving DecidableEq, Repr

/-- Function `_allocate_id`: returns `_NEXT_ID` and increments it. -/
def allocate_id (s : Store) : Nat × Store :=
  (s._NEXT_ID, { s with _NEXT_ID := s._NEXT_ID + 1 })

/-- Handler `create_note(payload)`: allocates an id, stamps both timestamps with
`now`, inserts the note, returns it. -/
def create_note (s : Store) (payload : NoteCreate) (now : Nat) : Note × Store :=
  let (nid, s₁) := allocate_id s
  let note : Note :=
    { id := nid, title := payload.title, content := payload.content,
      created_at := now, updated_at := now }
  (note, { s₁ with _STORE := dictSet s₁._STORE nid note })

/-- Handler `list_notes()`: `sorted(_STORE.values(), key=lambda n: n.updated_at,
reverse=True)` — a stable sort of the dict values, descending by
`updated_at`. -/
def list_notes (s : Store) : List Note :=
  (dictValues s._STORE).mergeSort (fun a b => Nat.ble b.updated_at a.updated_at)

/-- Handler `get_note(note_id)`: the stored note, or a 404. -/
def get_note (s : Store) (note_id : Nat) : Except ApiError Note :=
  match dictGet s._STORE note_id with
  | none => .error .notFound
  | some note => .ok note

/-- Handler `replace_note(note_id, payload)`: 404 if absent; otherwise builds a
fresh `Note` with the payload's title and content, the existing
`created_at`, `updated_at = now`, stores and returns it. -/
def replace_note (s : Store) (note_id : Nat) (payload : NoteCreate) (now : Nat) :
    Except ApiError Note × Store :=
  match dictGet s._STORE note_id with
  | none => (.error .notFound, s)
  | some existing =>
      let updated : Note :=
        { id := note_id, title := payload.title, content := payload.content,
          created_at := existing.created_at, updated_at := now }
      (.ok updated, { s with _STORE := dictSet s._STORE note_id updated })

/-- Handler `update_note(note_id, payload)`: 404 if absent; otherwise each supplied
field replaces the prior value (`payload.title if payload.title is not None
else existing.title`), `created_at` is kept, `updated_at = now`. -/
def update_note (s : Store) (note_id : Nat) (payload : NoteUpdate) (now : Nat) :
    Except ApiError Note × Store :=
  match dictGet s._STORE note_id with
  | none => (.error .notFound, s)
  | some existing =>
      let new_title := match payload.title with
        | some t => t
        | none => existing.title
      let new_content := match payload.content with
        | some c => c
        | none => existing.content
      let updated : Note :=
        { id := existing.id, title := new_title, content := new_content,
          created_at := existing.created_at, updated_at := now }
      (.ok updated, { s with _STORE := dictSet s._STORE note_id updated })

/-- Handler `delete_note(note_id)`: 404 if the key is absent, else `del _STORE[id]`. -/
def delete_note (s : Store) (note_id : Nat) : Except ApiError Unit × Store :=
  if (dictGet s._STORE note_id).isSome then
    (.ok (), { s with _STORE := dictDel s._STORE note_id })
  else
    (.error .notFound, s)

/-- FastAPI boundary for create: pydantic parses/validates the body into a
`NoteCreate` before `create_note` runs; a constraint violation is a 422
and the handler never runs. -/
def parseNoteCreate (title content : String) : Option NoteCreate :=
  if 1 ≤ title.length ∧ title.length ≤ 200 then
    some { title := title, content := content }
  else
    none

/-- FastAPI boundary for update: a supplied title must satisfy the
`NoteUpdate` constraints; absent fields parse as `none`. -/
def parseNoteUpdate (title content : Option String) : Option NoteUpdate :=
  match title with
  | none => some { title := none, content := content }
  | some t =>
      if 1 ≤ t.length ∧ t.length ≤ 200 then
        some { title := some t, content := content }
      else
        none

/-- The full create request path: validation first, then the handler; a
rejected payload returns 422 with the state untouched. -/
def handle_create (s : Store) (title content : String) (now : Nat) :
    Except ApiError Note × Store :=
  match parseNoteCreate title content with
  | none => (.error .validationError, s)
  | some payload =>
      let (note, s') := create_note s payload now
      (.ok note, s')

/-- One API operation, with the clock reading `now` taken at the moment
the handler calls `_now()` made explicit. -/
inductive Op where
  | create (payload : NoteCreate) (now : Nat)
  | replace (id : Nat) (payload : NoteCreate) (now : Nat)
  | update (id : Nat) (payload : NoteUpdate) (now : Nat)
  | delete (id : Nat)
  | get (id : Nat)
  | list
  deriving Repr

/-- The state transition of a single operation. -/
def applyOp (s : Store) : Op → Store
  | .create p now => (create_note s p now).2
  | .replace id p now => (replace_note s id p now).2
  | .update id p now => (update_note s id p now).2
  | .delete id => (delete_note s id).2
  | .get _ => s
  | .list => s

/-- Run a sequence of operations from a state. -/
def runOps (s : Store) : List Op → Store
  | [] => s
  | op :: rest => runOps (applyOp s op) rest

/-- The ids returned by the (always successful) create operations of a
sequence, in order. -/
def createIds (s : Store) : List Op → List Nat
  | [] => []
  | op :: rest =>
      match op with
      | .create p now => (create_note s p now).1.id :: createIds (applyOp s op) rest
      | _ => createIds (applyOp s op) rest

/-- The clock reading an operation uses, when it reads the clock. -/
def opTime : Op → Option Nat
  | .create _ now => some now
  | .replace _ _ now => some now
  | .update _ _ now => some now
  | .delete _ => none
  | .get _ => none
  | .list => none

/-- The clock readings of a sequence are nondecreasing and all at least
`t` (a monotone wall clock). -/
def timesMono (t : Nat) : List Op → Prop
  | [] => True
  | op :: rest =>
      match opTime op with
      | none => timesMono t rest
      | some t' => t ≤ t' ∧ timesMono t' rest

/-- The payload an operation carries passed boundary validation. -/
def opValid : Op → Prop
  | .create p _ => p.valid
  | .replace _ p _ => p.valid
  | .update _ p _ => p.valid
  | _ => True

/-- Every key of the store is below the counter, and the keys are
pairwise distinct. -/
def storeInv (s : Store) : Prop :=
  (∀ k ∈ dictKeys s._STORE, k < s._NEXT_ID) ∧ (dictKeys s._STORE).Nodup

/-- Every stored note satisfies `created_at ≤ updated_at`, and no stored
timestamp exceeds `t`. -/
def tsInv (s : Store) (t : Nat) : Prop :=
  ∀ kv ∈ s._STORE, kv.2.created_at ≤ kv.2.updated_at ∧ kv.2.updated_at ≤ t

/-- The last clock reading of a sequence, starting from `t`. -/
def finalTime (t : Nat) : List Op → Nat
  | [] => t
  | op :: rest =>
      match opTime op with
      | none => finalTime t rest
      | some t' => finalTime t' rest

/-- Every stored note has a title with length in `[1, 200]`. -/
def titleInv (s : Store) : Prop :=
  ∀ kv ∈ s._STORE, 1 ≤ kv.2.title.length ∧ kv.2.title.length ≤ 200

/-! ### Dictionary lemmas -/

theorem dictGet_dictSet_self (d : Dict) (k : Nat) (v : Note) :
    dictGet (dictSet d k v) k = some v := by
  induction d with
  | nil => simp [dictSet, dictGet]
  | cons hd tl ih =>
    obtain ⟨k', v'⟩ := hd
    by_cases h : k' = k
    · simp [dictSet, h, dictGet]
    · simp [dictSet, h, dictGet, ih]

theorem dictGet_dictSet_ne (d : Dict) (k k' : Nat) (v : Note) (h : k ≠ k') :
    dictGet (dictSet d k v) k' = dictGet d k' := by
  induction d with
  | nil => simp [dictSet, dictGet, h]
  | cons hd tl ih =>
    obtain ⟨k₀, v₀⟩ := hd
    by_cases h₀ : k₀ = k
    · subst h₀; simp [dictSet, dictGet, h]
    · simp [dictSet, h₀, dictGet, ih]

theorem dictGet_dictDel_ne (d : Dict) (k k' : Nat) (h : k ≠ k') :
    dictGet (dictDel d k) k' = dictGet d k' := by
  induction d with
  | nil => simp [dictDel]
  | cons hd tl ih =>
    obtain ⟨k₀, v₀⟩ := hd
    by_cases h₀ : k₀ = k
    · subst h₀; simp [dictDel, dictGet, h]
    · simp [dictDel, h₀, dictGet, ih]

theorem dictGet_mem (d : Dict) (k : Nat) (v : Note) (h : dictGet d k = some v) :
    (k, v) ∈ d := by
  induction d with
  | nil => simp [dictGet] at h
  | cons hd tl ih =>
    obtain ⟨k₀, v₀⟩ := hd
    by_cases h₀ : k₀ = k
    · subst h₀; simp [dictGet] at h; simp [h]
    · simp [dictGet, h₀] at h
      exact List.mem_cons_of_mem _ (ih h)

theorem mem_dictSet (d : Dict) (k : Nat) (v : Note) (kv : Nat × Note)
    (h : kv ∈ dictSet d k v) : kv = (k, v) ∨ kv ∈ d := by
  induction d with
  | nil => simp [dictSet] at h; simp [h]
  | cons hd tl ih =>
    obtain ⟨k₀, v₀⟩ := hd
    by_cases h₀ : k₀ = k
    · subst h₀; simp [dictSet] at h
      rcases h with h | h
      · exact Or.inl h
      · exact Or.inr (List.mem_cons_of_mem _ h)
    · simp [dictSet, h₀] at h
      rcases h with h | h
      · exact Or.inr (by simp [h])
      · rcases ih h with h' | h'
        · exact Or.inl h'
        · exact Or.inr (List.mem_cons_of_mem _ h')

theorem mem_dictDel (d : Dict) (k : Nat) (kv : Nat × Note)
    (h : kv ∈ dictDel d k) : kv ∈ d := by
  induction d with
  | nil => simp [dictDel] at h
  | cons hd tl ih =>
    obtain ⟨k₀, v₀⟩ := hd
    by_cases h₀ : k₀ = k
    · subst h₀; simp [dictDel] at h
      exact List.mem_cons_of_mem _ h
    · simp [dictDel, h₀] at h
      rcases h with h | h
      · simp [h]
      · exact List.mem_cons_of_mem _ (ih h)

theorem dictKeys_nil : dictKeys [] = [] := rfl

theorem dictKeys_cons (k : Nat) (v : Note) (tl : Dict) :
    dictKeys ((k, v) :: tl) = k :: dictKeys tl := rfl

theorem mem_dictKeys_dictSet (d : Dict) (k : Nat) (v : Note) (a : Nat) :
    a ∈ dictKeys (dictSet d k v) ↔ a = k ∨ a ∈ dictKeys d := by
  induction d with
  | nil => simp [dictSet, dictKeys_cons, dictKeys_nil]
  | cons hd tl ih =>
    obtain ⟨k₀, v₀⟩ := hd
    by_cases h₀ : k₀ = k
    · subst h₀
      rw [dictSet, if_pos rfl, dictKeys_cons, dictKeys_cons]
      simp only [List.mem_cons]
      tauto
    · rw [dictSet, if_neg h₀, dictKeys_cons, dictKeys_cons]
      simp only [List.mem_cons, ih]
      tauto

theorem nodup_dictKeys_dictSet (d : Dict) (k : Nat) (v : Note)
    (h : (dictKeys d).Nodup) : (dictKeys (dictSet d k v)).Nodup := by
  induction d with
  | nil => simp [dictSet, dictKeys_cons, dictKeys_nil]
  | cons hd tl ih =>
    obtain ⟨k₀, v₀⟩ := hd
    rw [dictKeys_cons, List.nodup_cons] at h
    by_cases h₀ : k₀ = k
    · subst h₀
      rw [dictSet, if_pos rfl, dictKeys_cons, List.nodup_cons]
      exact h
    · rw [dictSet, if_neg h₀, dictKeys_cons, List.nodup_cons]
      refine ⟨?_, ih h.2⟩
      intro hmem
      rcases (mem_dictKeys_dictSet tl k v k₀).mp hmem with h' | h'
      · exact h₀ h'
      · exact h.1 h'

theorem mem_dictKeys_dictDel (d : Dict) (k : Nat) (a : Nat)
    (h : a ∈ dictKeys (dictDel d k)) : a ∈ dictKeys d := by
  induction d with
  | nil => simpa [dictDel] using h
  | cons hd tl ih =>
    obtain ⟨k₀, v₀⟩ := hd
    by_cases h₀ : k₀ = k
    · subst h₀
      rw [dictDel, if_pos rfl] at h
      rw [dictKeys_cons]
      exact List.mem_cons_of_mem _ h
    · rw [dictDel, if_neg h₀, dictKeys_cons] at h
      rw [dictKeys_cons]
      rcases List.mem_cons.mp h with h' | h'
      · exact List.mem_cons.mpr (Or.inl h')
      · exact List.mem_cons_of_mem _ (ih h')

theorem nodup_dictKeys_dictDel (d : Dict) (k : Nat)
    (h : (dictKeys d).Nodup) : (dictKeys (dictDel d k)).Nodup := by
  induction d with
  | nil => simp [dictDel, dictKeys_nil]
  | cons hd tl ih =>
    obtain ⟨k₀, v₀⟩ := hd
    rw [dictKeys_cons, List.nodup_cons] at h
    by_cases h₀ : k₀ = k
    · subst h₀
      rw [dictDel, if_pos rfl]
      exact h.2
    · rw [dictDel, if_neg h₀, dictKeys_cons, List.nodup_cons]
      exact ⟨fun hmem => h.1 (mem_dictKeys_dictDel tl k k₀ hmem), ih h.2⟩

theorem mem_dictKeys_of_dictGet (d : Dict) (k : Nat) (v : Note)
    (h : dictGet d k = some v) : k ∈ dictKeys d := by
  have hmem := dictGet_mem d k v h
  induction d with
  | nil => simp at hmem
  | cons hd tl ih =>
    rcases List.mem_cons.mp hmem with h' | h'
    · obtain ⟨k₀, v₀⟩ := hd
      rw [dictKeys_cons]
      cases h'
      exact List.mem_cons_self _ _
    · obtain ⟨k₀, v₀⟩ := hd
      rw [dictKeys_cons]
      by_cases h₀ : k₀ = k
      · subst h₀; exact List.mem_cons_self _ _
      · rw [dictGet, if_neg h₀] at h
        exact List.mem_cons_of_mem _ (ih h h')

/-! ### Store invariants along operation traces -/

theorem storeInv_init : storeInv Store.init := by
  constructor
  · intro k hk; simp [Store.init, dictKeys_nil] at hk
  · simp [Store.init, dictKeys_nil]

theorem storeInv_applyOp (s : Store) (op : Op) (h : storeInv s) :
    storeInv (applyOp s op) := by
  obtain ⟨hbound, hnodup⟩ := h
  cases op with
  | create p now =>
    simp only [applyOp, create_note, allocate_id]
    constructor
    · intro k hk
      dsimp only at hk ⊢
      rcases (mem_dictKeys_dictSet _ _ _ _).mp hk with h' | h'
      · omega
      · have := hbound k h'
        omega
    · exact nodup_dictKeys_dictSet _ _ _ hnodup
  | replace id p now =>
    simp only [applyOp, replace_note]
    cases hget : dictGet s._STORE id with
    | none => exact ⟨hbound, hnodup⟩
    | some existing =>
      constructor
      · intro k hk
        rcases (mem_dictKeys_dictSet _ _ _ _).mp hk with h' | h'
        · subst h'; exact hbound k (mem_dictKeys_of_dictGet _ _ _ hget)
        · exact hbound k h'
      · exact nodup_dictKeys_dictSet _ _ _ hnodup
  | update id p now =>
    simp only [applyOp, update_note]
    cases hget : dictGet s._STORE id with
    | none => exact ⟨hbound, hnodup⟩
    | some existing =>
      constructor
      · intro k hk
        rcases (mem_dictKeys_dictSet _ _ _ _).mp hk with h' | h'
        · subst h'; exact hbound k (mem_dictKeys_of_dictGet _ _ _ hget)
        · exact hbound k h'
      · exact nodup_dictKeys_dictSet _ _ _ hnodup
  | delete id =>
    simp only [applyOp, delete_note]
    by_cases hget : (dictGet s._STORE id).isSome
    · rw [if_pos hget]
      exact ⟨fun k hk => hbound k (mem_dictKeys_dictDel _ _ _ hk),
        nodup_dictKeys_dictDel _ _ hnodup⟩
    · rw [if_neg hget]
      exact ⟨hbound, hnodup⟩
  | get id => exact ⟨hbound, hnodup⟩
  | list => exact ⟨hbound, hnodup⟩

theorem nextId_mono_applyOp (s : Store) (op : Op) :
    s._NEXT_ID ≤ (applyOp s op)._NEXT_ID := by
  cases op with
  | create p now => simp [applyOp, create_note, allocate_id]
  | replace id p now =>
    simp only [applyOp, replace_note]
    cases dictGet s._STORE id <;> simp
  | update id p now =>
    simp only [applyOp, update_note]
    cases dictGet s._STORE id <;> simp
  | delete id =>
    simp only [applyOp, delete_note]
    by_cases hget : (dictGet s._STORE id).isSome
    · rw [if_pos hget]
    · rw [if_neg hget]
  | get id => exact le_refl _
  | list => exact le_refl _

theorem runOps_cons (s : Store) (op : Op) (rest : List Op) :
    runOps s (op :: rest) = runOps (applyOp s op) rest := rfl

theorem storeInv_runOps (ops : List Op) (s : Store) (h : storeInv s) :
    storeInv (runOps s ops) := by
  induction ops generalizing s with
  | nil => exact h
  | cons op rest ih => exact ih _ (storeInv_applyOp s op h)

theorem createIds_lb (ops : List Op) (s : Store) (i : Nat)
    (h : i ∈ createIds s ops) : s._NEXT_ID ≤ i := by
  induction ops generalizing s with
  | nil => simp [createIds] at h
  | cons op rest ih =>
    cases op with
    | create p now =>
      simp only [createIds] at h
      rcases List.mem_cons.mp h with h' | h'
      · simp [create_note, allocate_id] at h'
        omega
      · have := ih _ h'
        simp [applyOp, create_note, allocate_id] at this
        omega
    | replace id p now =>
      exact le_trans (nextId_mono_applyOp s _) (ih _ h)
    | update id p now =>
      exact le_trans (nextId_mono_applyOp s _) (ih _ h)
    | delete id =>
      exact le_trans (nextId_mono_applyOp s _) (ih _ h)
    | get id =>
      exact le_trans (nextId_mono_applyOp s _) (ih _ h)
    | list =>
      exact le_trans (nextId_mono_applyOp s _) (ih _ h)

theorem createIds_pairwise (ops : List Op) (s : Store) :
    (createIds s ops).Pairwise (· < ·) := by
  induction ops generalizing s with
  | nil => simp [createIds]
  | cons op rest ih =>
    cases op with
    | create p now =>
      simp only [createIds]
      refine List.Pairwise.cons ?_ (ih _)
      intro i hi
      have hlb := createIds_lb rest (applyOp s (.create p now)) i hi
      simp [applyOp, create_note, allocate_id] at hlb ⊢
      omega
    | replace id p now => exact ih _
    | update id p now => exact ih _
    | delete id => exact ih _
    | get id => exact ih _
    | list => exact ih _

/-! ### Timestamp invariant -/

theorem tsInv_applyOp (s : Store) (op : Op) (t t' : Nat) (h : tsInv s t)
    (htime : opTime op = none ∧ t' = t ∨ opTime op = some t' ∧ t ≤ t') :
    tsInv (applyOp s op) t' := by
  have hmono : t ≤ t' := by rcases htime with ⟨_, rfl⟩ | ⟨_, hle⟩ <;> omega
  cases op with
  | create p now =>
    have hnow : t' = now := by
      rcases htime with ⟨hnone, _⟩ | ⟨hsome, _⟩
      · simp [opTime] at hnone
      · simp [opTime] at hsome; omega
    subst hnow
    intro kv hkv
    rcases mem_dictSet _ _ _ _ (by simpa [applyOp, create_note, allocate_id] using hkv)
      with h' | h'
    · simp [h']
    · have := h kv h'
      omega
  | replace id p now =>
    have hnow : t' = now := by
      rcases htime with ⟨hnone, _⟩ | ⟨hsome, _⟩
      · simp [opTime] at hnone
      · simp [opTime] at hsome; omega
    subst hnow
    intro kv hkv
    simp only [applyOp, replace_note] at hkv
    cases hget : dictGet s._STORE id with
    | none =>
      rw [hget] at hkv
      have := h kv hkv
      omega
    | some existing =>
      rw [hget] at hkv
      rcases mem_dictSet _ _ _ _ hkv with h' | h'
      · have hex := h (id, existing) (dictGet_mem _ _ _ hget)
        simp [h']
        simp at hex
        omega
      · have := h kv h'
        omega
  | update id p now =>
    have hnow : t' = now := by
      rcases htime with ⟨hnone, _⟩ | ⟨hsome, _⟩
      · simp [opTime] at hnone
      · simp [opTime] at hsome; omega
    subst hnow
    intro kv hkv
    simp only [applyOp, update_note] at hkv
    cases hget : dictGet s._STORE id with
    | none =>
      rw [hget] at hkv
      have := h kv hkv
      omega
    | some existing =>
      rw [hget] at hkv
      rcases mem_dictSet _ _ _ _ hkv with h' | h'
      · have hex := h (id, existing) (dictGet_mem _ _ _ hget)
        simp [h']
        simp at hex
        omega
    -- fallthrough below
      · have := h kv h'
        omega
  | delete id =>
    intro kv hkv
    simp only [applyOp, delete_note] at hkv
    by_cases hget : (dictGet s._STORE id).isSome
    · rw [if_pos hget] at hkv
      have := h kv (mem_dictDel _ _ _ hkv)
      omega
    · rw [if_neg hget] at hkv
      have := h kv hkv
      omega
  | get id =>
    intro kv hkv
    have := h kv hkv
    omega
  | list =>
    intro kv hkv
    have := h kv hkv
    omega

theorem tsInv_runOps (ops : List Op) (s : Store) (t : Nat)
    (hmono : timesMono t ops) (h : tsInv s t) :
    tsInv (runOps s ops) (finalTime t ops) := by
  induction ops generalizing s t with
  | nil => exact h
  | cons op rest ih =>
    rw [runOps_cons]
    cases htime : opTime op with
    | none =>
      simp only [timesMono, htime] at hmono
      simp only [finalTime, htime]
      exact ih _ _ hmono (tsInv_applyOp s op t t h (Or.inl ⟨htime, rfl⟩))
    | some t' =>
      simp only [timesMono, htime] at hmono
      simp only [finalTime, htime]
      exact ih _ _ hmono.2 (tsInv_applyOp s op t t' h (Or.inr ⟨htime, hmono.1⟩))

/-! ### Title validity invariant -/

theorem titleInv_applyOp (s : Store) (op : Op) (hop : opValid op)
    (h : titleInv s) : titleInv (applyOp s op) := by
  cases op with
  | create p now =>
    intro kv hkv
    rcases mem_dictSet _ _ _ _ (by simpa [applyOp, create_note, allocate_id] using hkv)
      with h' | h'
    · simpa [h'] using hop
    · exact h kv h'
  | replace id p now =>
    intro kv hkv
    simp only [applyOp, replace_note] at hkv
    cases hget : dictGet s._STORE id with
    | none => rw [hget] at hkv; exact h kv hkv
    | some existing =>
      rw [hget] at hkv
      rcases mem_dictSet _ _ _ _ hkv with h' | h'
      · simpa [h'] using hop
      · exact h kv h'
  | update id p now =>
    intro kv hkv
    simp only [applyOp, update_note] at hkv
    cases hget : dictGet s._STORE id with
    | none => rw [hget] at hkv; exact h kv hkv
    | some existing =>
      rw [hget] at hkv
      rcases mem_dictSet _ _ _ _ hkv with h' | h'
      · cases hp : p.title with
        | none =>
          have hex := h (id, existing) (dictGet_mem _ _ _ hget)
          simp [h', hp]
          simpa using hex
        | some newt =>
          have := hop newt hp
          simp [h', hp]
          omega
      · exact h kv h'
  | delete id =>
    intro kv hkv
    simp only [applyOp, delete_note] at hkv
    by_cases hget : (dictGet s._STORE id).isSome
    · rw [if_pos hget] at hkv
      exact h kv (mem_dictDel _ _ _ hkv)
    · rw [if_neg hget] at hkv
      exact h kv hkv
  | get id => exact h
  | list => exact h

theorem titleInv_runOps (ops : List Op) (s : Store)
    (hops : ∀ op ∈ ops, opValid op) (h : titleInv s) :
    titleInv (runOps s ops) := by
  induction ops generalizing s with
  | nil => exact h
  | cons op rest ih =>
    rw [runOps_cons]
    exact ih _ (fun o ho => hops o (List.mem_cons_of_mem _ ho))
      (titleInv_applyOp s op (hops op (List.mem_cons_self _ _)) h)

/-! ### Claim theorems -/

/-- C1: for every id and store state, `get_note`, `replace_note`,
`update_note` and `delete_note` fail with NotFound exactly when no note
with that id exists, and a failing call leaves the mapping and the id
counter completely unchanged. -/
theorem notFound_iff_absent (s : Store) (id : Nat) (pc : NoteCreate)
    (pu : NoteUpdate) (now : Nat) :
    (get_note s id = .error .notFound ↔ dictGet s._STORE id = none) ∧
    ((replace_note s id pc now).1 = .error .notFound ↔ dictGet s._STORE id = none) ∧
    ((update_note s id pu now).1 = .error .notFound ↔ dictGet s._STORE id = none) ∧
    ((delete_note s id).1 = .error .notFound ↔ dictGet s._STORE id = none) ∧
    (dictGet s._STORE id = none →
      (replace_note s id pc now).2 = s ∧ (update_note s id pu now).2 = s ∧
      (delete_note s id).2 = s) := by
  cases hget : dictGet s._STORE id with
  | none => simp [get_note, replace_note, update_note, delete_note, hget]
  | some v => simp [get_note, replace_note, update_note, delete_note, hget]

/-- Witness for C1 at the empty store and id 1, where every operation
fails with NotFound. -/
theorem notFound_iff_absent_witness :
    get_note Store.init 1 = .error .notFound ↔ dictGet Store.init._STORE 1 = none :=
  (notFound_iff_absent Store.init 1 ⟨"a", "b"⟩ ⟨none, none⟩ 0).1

/-- C2: `list_notes` returns exactly the multiset of stored notes (a
permutation of the dict's values, so each stored note appears exactly
once and nothing else appears), sorted by `updated_at` descending, and
the list operation leaves the store unchanged. -/
theorem list_notes_spec (s : Store) :
    (list_notes s).Perm (dictValues s._STORE) ∧
    (list_notes s).Pairwise (fun a b => b.updated_at ≤ a.updated_at) ∧
    applyOp s .list = s := by
  refine ⟨List.mergeSort_perm _ _, ?_, rfl⟩
  have h : ((dictValues s._STORE).mergeSort
      (fun a b => Nat.ble b.updated_at a.updated_at)).Pairwise
      (fun a b => Nat.ble b.updated_at a.updated_at = true) := by
    apply List.sorted_mergeSort
    · intro a b c hab hbc
      simp only [Nat.ble_eq] at hab hbc ⊢
      omega
    · intro a b
      have h := Nat.le_total b.updated_at a.updated_at
      simpa [Nat.ble_eq, Bool.or_eq_true] using h
  exact h.imp (by intro a b hab; simpa using hab)

/-- C3: along any operation sequence from the initial state, the ids
returned by successful creates are strictly increasing, and the stored
ids are pairwise distinct — so ids are never shared nor reused after
deletion. -/
theorem create_ids_strictly_increasing (ops : List Op) :
    (createIds Store.init ops).Pairwise (· < ·) ∧
    (dictKeys (runOps Store.init ops)._STORE).Nodup :=
  ⟨createIds_pairwise ops Store.init,
   (storeInv_runOps ops Store.init storeInv_init).2⟩

/-- C4: `create_note` returns a note with `created_at = updated_at`,
exactly the supplied title and content, and the freshly allocated id,
and inserts exactly that note under that id (incrementing the counter). -/
theorem create_note_spec (s : Store) (p : NoteCreate) (now : Nat) :
    (create_note s p now).1.created_at = (create_note s p now).1.updated_at ∧
    (create_note s p now).1.title = p.title ∧
    (create_note s p now).1.content = p.content ∧
    (create_note s p now).1.id = s._NEXT_ID ∧
    dictGet (create_note s p now).2._STORE (create_note s p now).1.id =
      some (create_note s p now).1 ∧
    (create_note s p now).2._NEXT_ID = s._NEXT_ID + 1 := by
  refine ⟨rfl, rfl, rfl, rfl, ?_, rfl⟩
  simp [create_note, allocate_id, dictGet_dictSet_self]

/-- C5: when a note with the given id exists, `replace_note` overwrites
title and content with the payload, preserves the id and `created_at`,
sets `updated_at = now` (strictly larger than before when the clock
advanced), and stores the result. -/
theorem replace_note_spec (s : Store) (id : Nat) (p : NoteCreate) (now : Nat)
    (existing : Note) (hget : dictGet s._STORE id = some existing)
    (hclock : existing.updated_at < now) :
    ∃ updated : Note,
      (replace_note s id p now).1 = .ok updated ∧
      updated.title = p.title ∧ updated.content = p.content ∧
      updated.id = id ∧ updated.created_at = existing.created_at ∧
      updated.updated_at = now ∧ existing.updated_at < updated.updated_at ∧
      dictGet (replace_note s id p now).2._STORE id = some updated ∧
      (replace_note s id p now).2._NEXT_ID = s._NEXT_ID := by
  refine ⟨{ id := id, title := p.title, content := p.content,
            created_at := existing.created_at, updated_at := now },
          ?_, rfl, rfl, rfl, rfl, rfl, hclock, ?_, ?_⟩
  · simp [replace_note, hget]
  · simp [replace_note, hget, dictGet_dictSet_self]
  · simp [replace_note, hget]

/-- Witness for C5: replacing the only note of a one-note store at a
later clock reading keeps the counter at 2. -/
theorem replace_note_spec_witness :
    ((replace_note (create_note Store.init ⟨"A", "1"⟩ 1).2 1 ⟨"C", "3"⟩ 2).2)._NEXT_ID = 2 := by
  obtain ⟨u, h₁, h₂, h₃, h₄, h₅, h₆, h₇, h₈, h₉⟩ :=
    replace_note_spec (create_note Store.init ⟨"A", "1"⟩ 1).2 1 ⟨"C", "3"⟩ 2
      ⟨1, "A", "1", 1, 1⟩ (by decide) (by decide)
  exact h₉

/-- C6: when a note with the given id exists, `update_note` sets each
supplied field, keeps each unsupplied field, preserves the id and
`created_at`, and sets `updated_at = now` even when no field is supplied. -/
theorem update_note_spec (s : Store) (id : Nat) (p : NoteUpdate) (now : Nat)
    (existing : Note) (hget : dictGet s._STORE id = some existing) :
    ∃ updated : Note,
      (update_note s id p now).1 = .ok updated ∧
      updated.title = p.title.getD existing.title ∧
      updated.content = p.content.getD existing.content ∧
      updated.id = existing.id ∧
      updated.created_at = existing.created_at ∧
      updated.updated_at = now ∧
      dictGet (update_note s id p now).2._STORE id = some updated ∧
      (update_note s id p now).2._NEXT_ID = s._NEXT_ID ∧
      (p.title = none ∧ p.content = none →
        updated.title = existing.title ∧ updated.content = existing.content) := by
  refine ⟨{ id := existing.id,
            title := match p.title with | some t => t | none => existing.title,
            content := match p.content with | some c => c | none => existing.content,
            created_at := existing.created_at, updated_at := now },
          ?_, ?_, ?_, rfl, rfl, rfl, ?_, ?_, ?_⟩
  · simp [update_note, hget]
  · cases p.title <;> simp
  · cases p.content <;> simp
  · simp [update_note, hget, dictGet_dictSet_self]
  · simp [update_note, hget]
  · rintro ⟨ht, hc⟩
    constructor
    · simp [ht]
    · simp [hc]

/-- Witness for C6: an update with no fields supplied leaves title and
content unchanged but stamps the new `updated_at`. -/
theorem update_note_spec_witness :
    ((update_note (create_note Store.init ⟨"A", "1"⟩ 1).2 1 ⟨none, none⟩ 2).2)._NEXT_ID = 2 := by
  obtain ⟨u, h₁, h₂, h₃, h₄, h₅, h₆, h₇, h₈, h₉⟩ :=
    update_note_spec (create_note Store.init ⟨"A", "1"⟩ 1).2 1 ⟨none, none⟩ 2
      ⟨1, "A", "1", 1, 1⟩ (by decide)
  exact h₈

/-- C7: along any operation sequence from the initial state whose clock
readings are nondecreasing, every resident note satisfies
`created_at ≤ updated_at`. -/
theorem updated_at_ge_created_at (ops : List Op) (hmono : timesMono 0 ops) :
    ∀ kv ∈ (runOps Store.init ops)._STORE,
      kv.2.created_at ≤ kv.2.updated_at := by
  intro kv hkv
  have h := tsInv_runOps ops Store.init 0 hmono
    (by intro kv hkv; simp [Store.init] at hkv)
  exact (h kv hkv).1

/-- Witness for C7 on a concrete create-then-update trace, at the single
resident entry. -/
theorem updated_at_ge_created_at_witness :
    ((1 : Nat), (⟨1, "A", "1", 1, 2⟩ : Note)).2.created_at ≤
      ((1 : Nat), (⟨1, "A", "1", 1, 2⟩ : Note)).2.updated_at :=
  updated_at_ge_created_at
    [Op.create ⟨"A", "1"⟩ 1, Op.update 1 ⟨none, none⟩ 2]
    (by simp [timesMono, opTime])
    (1, ⟨1, "A", "1", 1, 2⟩) (by decide)

/-- C8: along any operation sequence from the initial state whose
payloads passed boundary validation, every resident note has a title of
length in `[1, 200]`; and the boundary parsers only admit payloads
satisfying the validation constraints. -/
theorem title_validity (ops : List Op) (hops : ∀ op ∈ ops, opValid op) :
    (∀ kv ∈ (runOps Store.init ops)._STORE,
      1 ≤ kv.2.title.length ∧ kv.2.title.length ≤ 200) ∧
    (∀ t c p, parseNoteCreate t c = some p → p.valid) ∧
    (∀ t c p, parseNoteUpdate t c = some p → p.valid) := by
  refine ⟨titleInv_runOps ops Store.init hops
    (by intro kv hkv; simp [Store.init] at hkv), ?_, ?_⟩
  · intro t c p hp
    by_cases hc : 1 ≤ t.length ∧ t.length ≤ 200
    · rw [parseNoteCreate, if_pos hc] at hp
      cases hp
      exact hc
    · rw [parseNoteCreate, if_neg hc] at hp
      cases hp
  · intro t c p hp
    cases t with
    | none =>
      rw [parseNoteUpdate] at hp
      cases hp
      intro u hu
      simp at hu
    | some t₀ =>
      by_cases hc : 1 ≤ t₀.length ∧ t₀.length ≤ 200
      · rw [parseNoteUpdate, if_pos hc] at hp
        cases hp
        intro u hu
        simp at hu
        subst hu
        exact hc
      · rw [parseNoteUpdate, if_neg hc] at hp
        cases hp

/-- Witness for C8 on a one-create trace with a valid title, at the
single resident entry. -/
theorem title_validity_witness :
    1 ≤ ((1 : Nat), (⟨1, "A", "", 1, 1⟩ : Note)).2.title.length ∧
      ((1 : Nat), (⟨1, "A", "", 1, 1⟩ : Note)).2.title.length ≤ 200 :=
  (title_validity [Op.create ⟨"A", ""⟩ 1]
    (by intro op hop
        rw [List.mem_singleton] at hop
        subst hop
        exact ⟨by decide, by decide⟩)).1
    (1, ⟨1, "A", "", 1, 1⟩) (by decide)

/-- C9: a create request whose payload fails validation is rejected at
the boundary with a 422; the handler never runs, so the mapping and the
id counter are both unchanged. -/
theorem rejected_create_leaves_store (s : Store) (title content : String)
    (now : Nat) (h : parseNoteCreate title content = none) :
    handle_create s title content now = (.error .validationError, s) := by
  simp [handle_create, h]

/-- Witness for C9: an empty title is rejected and the initial store
(counter 1, empty mapping) is returned untouched. -/
theorem rejected_create_leaves_store_witness :
    handle_create Store.init "" "x" 0 = (.error .validationError, Store.init) :=
  rejected_create_leaves_store Store.init "" "x" 0 (by decide)

/-- C10: an operation addressed at id `x` (create yielding `x`, replace,
update or delete of `x`) leaves the note stored at any other id `y`
exactly as it was. -/
theorem frame_other_ids (s : Store) (x y : Nat) (hxy : x ≠ y) (ny : Note)
    (hy : dictGet s._STORE y = some ny) (pc : NoteCreate) (pu : NoteUpdate)
    (now : Nat) :
    (s._NEXT_ID ≠ y → dictGet (create_note s pc now).2._STORE y = some ny) ∧
    dictGet (replace_note s x pc now).2._STORE y = some ny ∧
    dictGet (update_note s x pu now).2._STORE y = some ny ∧
    dictGet (delete_note s x).2._STORE y = some ny := by
  refine ⟨?_, ?_, ?_, ?_⟩
  · intro hne
    simp only [create_note, allocate_id]
    rw [dictGet_dictSet_ne _ _ _ _ hne]
    exact hy
  · cases hget : dictGet s._STORE x with
    | none => simp only [replace_note, hget]; exact hy
    | some e =>
      simp only [replace_note, hget]
      rw [dictGet_dictSet_ne _ _ _ _ hxy]
      exact hy
  · cases hget : dictGet s._STORE x with
    | none => simp only [update_note, hget]; exact hy
    | some e =>
      simp only [update_note, hget]
      rw [dictGet_dictSet_ne _ _ _ _ hxy]
      exact hy
  · by_cases hget : (dictGet s._STORE x).isSome
    · simp only [delete_note, if_pos hget]
      rw [dictGet_dictDel_ne _ _ _ hxy]
      exact hy
    · simp only [delete_note, if_neg hget]
      exact hy

/-- Witness for C10: deleting note 1 of a two-note store leaves note 2
exactly in place. -/
theorem frame_other_ids_witness :
    dictGet (delete_note
        (create_note (create_note Store.init ⟨"A", "1"⟩ 1).2 ⟨"B", "2"⟩ 2).2
        1).2._STORE 2 = some ⟨2, "B", "2", 2, 2⟩ :=
  (frame_other_ids
      (create_note (create_note Store.init ⟨"A", "1"⟩ 1).2 ⟨"B", "2"⟩ 2).2
      1 2 (by decide) ⟨2, "B", "2", 2, 2⟩ (by decide)
      ⟨"Z", "z"⟩ ⟨none, none⟩ 9).2.2.2

end NotesApp
